import Mathlib

/-
Verification of the repeating-key-XOR cryptanalysis core of the cryptopals
repository.  Byte buffers are embedded as `List Nat` (each entry a byte
value), Rust `f32` scores as exact rationals `ℚ` (with an explicit `FScore`
wrapper where the code can produce NaN), strings as `List Char`, and
fallible / panicking code as `Option`-valued functions where `none` models
a panic.
-/

namespace Cryptopals

/-! ## Hex decoding (src/encoding/hex.rs) -/

/-- Hex digit value of a character, modelling `char::to_digit(16)`:
a value below 16 for 0-9 / a-f / A-F, `none` otherwise. -/
def hexDigit (c : Char) : Option Nat :=
  if '0' ≤ c ∧ c ≤ '9' then some (c.toNat - '0'.toNat)
  else if 'a' ≤ c ∧ c ≤ 'f' then some (c.toNat - 'a'.toNat + 10)
  else if 'A' ≤ c ∧ c ≤ 'F' then some (c.toNat - 'A'.toNat + 10)
  else none

/-- The `batching` step of `hex::decode`: pair up the digit values,
`a << 4 | b`, an odd trailing digit is padded with a zero nibble. -/
def pairBytes : List Nat → List Nat
  | [] => []
  | [x] => [x * 16]
  | x :: y :: rest => (x * 16 + y) :: pairBytes rest

/-- Model of `hex::decode`: every character is converted with
`to_digit(16).unwrap()` (a non-hex character panics, modelled by `none`),
then digits are paired into bytes. -/
def hexDecode (hex : List Char) : Option (List Nat) :=
  (hex.mapM hexDigit).map pairBytes

/-! ## XOR primitives (src/crypto/xor.rs) -/

/-- Model of `xor_with_byte`: decode the hex string and XOR every byte with
the given byte.  `none` models the decode panic on invalid hex. -/
def xor_with_byte (hex : List Char) (byte : Nat) : Option (List Nat) :=
  (hexDecode hex).map (List.map (fun b => b ^^^ byte))

/-- Model of `xor_with_char`: `ch as u8` truncates the scalar value to the
low eight bits. -/
def xor_with_char (hex : List Char) (ch : Char) : Option (List Nat) :=
  xor_with_byte hex (ch.toNat % 256)

/-- One period of the cycled key, truncated to `n` positions, modelling
`key.as_bytes().iter().cycle()` consumed `n` times; the cycle of an empty
key is the empty iterator. -/
def cycleTake (key : List Nat) (n : Nat) : List Nat :=
  if key = [] then [] else (List.range n).map (fun i => key.getD (i % key.length) 0)

/-- Model of `repeating_key_xor`: zip the buffer against the cycled key
bytes and XOR pointwise; `zip` stops at the shorter side. -/
def repeating_key_xor (bytes : List Nat) (key : List Nat) : List Nat :=
  List.zipWith (fun a b => a ^^^ b) bytes (cycleTake key bytes.length)

/-! ## Frequency analysis (src/analysis/frequency.rs) -/

/-- Model of `char::from_u32`: defined exactly on Unicode scalar values
(below the surrogate range, or above it and at most 0x10FFFF). -/
def charFromU32 (n : Nat) : Option Char :=
  if n < 0xD800 ∨ (0xDFFF < n ∧ n < 0x110000) then some (Char.ofNat n) else none

/-- Model of `bytes_to_string`: each byte through `char::from_u32`,
keeping the characters that exist.  The result is the character list of
the returned `String`. -/
def bytes_to_string (bytes : List Nat) : List Char :=
  bytes.filterMap charFromU32

/-- Model of `calculate_frequencies`, as the lookup-with-default-0 view of
the returned map: total count is over all characters of the text, only
characters of the character set get a nonzero entry, and an empty text
yields the empty map. -/
def calculate_frequencies (characterSet : List Char) (text : List Char) : Char → ℚ :=
  fun ch =>
    if text.length = 0 then 0
    else if ch ∈ characterSet then (text.count ch : ℚ) / (text.length : ℚ)
    else 0

/-- Model of `score_text`: sum over the character set of the absolute
difference between expected and actual frequency (lower is better). -/
def score_text (text : List Char) (expected : Char → ℚ) (characterSet : List Char) : ℚ :=
  (characterSet.map
    (fun ch => |expected ch - calculate_frequencies characterSet text ch|)).sum

/-- Model of `Iterator::min_by` with the comparator
`partial_cmp(..).unwrap_or(Equal)` on the first component: fold keeping
the current best unless the new element is strictly smaller, so the first
of equally-minimal elements wins. -/
def minByFst {α : Type} (l : List (ℚ × α)) : Option (ℚ × α) :=
  match l with
  | [] => none
  | h :: t => some (t.foldl (fun best x => if x.1 < best.1 then x else best) h)

/-- Model of `Iterator::max_by` with `total_cmp` on the first component:
fold replacing the current best whenever it is less than or equal to the
new element, so the last of equally-maximal elements wins. -/
def maxByFst {α : Type} (l : List (ℚ × α)) : Option (ℚ × α) :=
  match l with
  | [] => none
  | h :: t => some (t.foldl (fun best x => if best.1 ≤ x.1 then x else best) h)

/-- Model of `break_single_byte_xor` (frequency.rs): for every character
of the character set, XOR-decrypt the hex ciphertext with it, convert with
`bytes_to_string`, score, and take the minimum-score pair.  The outer
`Option` models the hex-decode panic inside `xor_with_char` (which cannot
fire when the character set is empty, since the iterator is lazy); the
inner `Option` is the function's own return value. -/
def break_single_byte_xor (hexCiphertext : List Char) (expected : Char → ℚ)
    (characterSet : List Char) : Option (Option (ℚ × List Char)) :=
  (characterSet.mapM
      (fun ch => (xor_with_char hexCiphertext ch).map bytes_to_string)).map
    (fun plaintexts =>
      minByFst (plaintexts.map (fun pt => (score_text pt expected characterSet, pt))))

/-! ## Key-size estimation (src/analysis/distance.rs) -/

/-- Model of `count_set_bits`: the number of bit positions below 8 at
which the byte has a one bit. -/
def count_set_bits (byte : Nat) : Nat :=
  ((List.range 8).filter (fun idx => ((1 <<< idx) &&& byte) != 0)).length

/-- Modelled from the spec: the raw byte-level XOR primitive `xor_bytes`
is imported by distance.rs from crypto::xor but absent from src; the spec
describes it as the "single XOR of two equal-length buffers". -/
def xor_bytes (a b : List Nat) : List Nat :=
  List.zipWith (fun x y => x ^^^ y) a b

/-- Model of `hamming_distance`: XOR the buffers and sum the popcount of
every resulting byte. -/
def hamming_distance (a b : List Nat) : Nat :=
  ((xor_bytes a b).map count_set_bits).sum

/-- Model of `chunks_exact(k)`: the ⌊length/k⌋ consecutive disjoint full
chunks of exactly `k` elements — the i-th chunk is the `k` bytes starting
at position `i*k` — with a shorter remainder dropped.  (`chunks_exact(0)`
panics in Rust and is unreachable here, since every caller passes a
positive chunk size.) -/
def chunksExact (k : Nat) (l : List Nat) : List (List Nat) :=
  if k = 0 then [] else (List.range (l.length / k)).map (fun i => (l.drop (i * k)).take k)

/-- Model of `tuple_windows` for pairs: adjacent pairs of the list. -/
def tupleWindows {α : Type} (l : List α) : List (α × α) :=
  l.zip l.tail

/-- An `f32` score as the code can produce it: either an exact rational
value or the NaN produced by the division `0.0 / 0.0`. -/
inductive FScore where
  | nan : FScore
  | val : ℚ → FScore
deriving DecidableEq

/-- Average of a list of `f32` values, modelling
`l.iter().sum::<f32>() / l.len() as f32`: the empty list divides zero by
zero and produces NaN. -/
def favg (l : List ℚ) : FScore :=
  if l.length = 0 then FScore.nan else FScore.val (l.sum / (l.length : ℚ))

/-- The normalized adjacent-chunk distances sampled for one candidate key
size: up to `chunks` consecutive exact chunks of `k` bytes, Hamming
distance of each adjacent pair, each divided by `k`. -/
def norm_distances (bytes : List Nat) (chunks k : Nat) : List ℚ :=
  (tupleWindows ((chunksExact k bytes).take chunks)).map
    (fun p => (hamming_distance p.1 p.2 : ℚ) / (k : ℚ))

/-- The average normalized distance recorded for one candidate key size. -/
def keySizeAvg (bytes : List Nat) (chunks k : Nat) : FScore :=
  favg (norm_distances bytes chunks k)

/-- The candidate key sizes of `probable_key_sizes` before sorting: every
`k` in `[1, maxKeySize)` with `2*k ≤ bytes.length`, paired with its
average normalized distance. -/
def keySizeAverages (bytes : List Nat) (chunks maxKeySize : Nat) : List (Nat × FScore) :=
  ((List.range' 1 (maxKeySize - 1)).filter (fun k => decide (2 * k ≤ bytes.length))).map
    (fun k => (k, keySizeAvg bytes chunks k))

/-- Model of `f32::total_cmp` as a total Boolean order on `FScore`.
`total_cmp` totally orders every `f32` including NaN and never panics;
the quiet NaN produced by `0.0 / 0.0` is ordered here after all numeric
values (its sign, hence its side, is platform-dependent, and no theorem
below depends on the choice). -/
def fle : FScore → FScore → Bool
  | FScore.val a, FScore.val b => decide (a ≤ b)
  | FScore.val _, FScore.nan => true
  | FScore.nan, FScore.val _ => false
  | FScore.nan, FScore.nan => true

/-- The comparator of `sorted_by` in `probable_key_sizes`: `total_cmp` on
the score component. -/
def fpairLe (p q : Nat × FScore) : Bool :=
  fle p.2 q.2

/-- The candidate key sizes sorted ascending by average normalized
distance under `total_cmp`. -/
def sortedKeySizes (bytes : List Nat) (chunks maxKeySize : Nat) : List (Nat × FScore) :=
  (keySizeAverages bytes chunks maxKeySize).mergeSort fpairLe

/-- Model of `probable_key_sizes`: sort the candidates by average
normalized distance, keep the key sizes, return the first `topN`. -/
def probable_key_sizes (bytes : List Nat) (topN chunks maxKeySize : Nat) : List Nat :=
  ((sortedKeySizes bytes chunks maxKeySize).map (fun p => p.1)).take topN

/-! ## Column transposition (src/analysis/distance.rs) -/

/-- Model of `transpose_byte_chunks`: `blockSize == 0` fails the
`debug_assert!(block_size > 0)` and, in release builds, panics on the
integer division `bytes.len() as u32 / block_size`, modelled by `none`;
otherwise every byte is pushed onto the block indexed by its position
modulo `blockSize`. -/
def transpose_byte_chunks (bytes : List Nat) (blockSize : Nat) : Option (List (List Nat)) :=
  if blockSize = 0 then none
  else some (bytes.enum.foldl
    (fun blocks p => blocks.set (p.1 % blockSize) (blocks.getD (p.1 % blockSize) [] ++ [p.2]))
    (List.replicate blockSize []))

/-- Round-robin interleaving of a family of streams: repeatedly emit the
head of every nonempty stream in order, then continue with the tails. -/
def interleave (ls : List (List Nat)) : List Nat :=
  if h : (ls.map List.length).sum = 0 then []
  else (ls.filterMap List.head?) ++ interleave (ls.map List.tail)
termination_by (ls.map List.length).sum
decreasing_by
  induction ls with
  | nil => simp at h
  | cons l t ih =>
    simp only [List.map_cons, List.sum_cons, List.length_tail] at *
    rcases Nat.eq_zero_or_pos l.length with h0 | h0
    · have ht := ih (by omega)
      omega
    · have : ((t.map List.tail).map List.length).sum ≤ (t.map List.length).sum := by
        clear h ih h0
        induction t with
        | nil => simp
        | cons u v ihv =>
          simp only [List.map_cons, List.sum_cons, List.length_tail]
          omega
      omega

/-- The j-th column stream of a buffer enumerated from index `m` with
period `k`: the bytes whose global position is congruent to `j` modulo
`k`, in order.  `colF k j 0` is the reference characterization of the
j-th block of `transpose_byte_chunks`. -/
def colF (k j m : Nat) (bytes : List Nat) : List Nat :=
  ((List.enumFrom m bytes).filter (fun p => decide (p.1 % k = j))).map (fun p => p.2)

/-! ## UTF-8 validity ("the system's text encoding") -/

/-- Byte-level UTF-8 validity per RFC 3629, used to express the spec's
notion of a byte buffer being decodable as valid text. -/
def utf8Valid : List Nat → Bool
  | [] => true
  | b1 :: t1 =>
    if b1 < 0x80 then utf8Valid t1
    else
      match t1 with
      | [] => false
      | b2 :: t2 =>
        if 0xC2 ≤ b1 ∧ b1 ≤ 0xDF then decide (0x80 ≤ b2 ∧ b2 ≤ 0xBF) && utf8Valid t2
        else
          match t2 with
          | [] => false
          | b3 :: t3 =>
            if b1 = 0xE0 then
              decide (0xA0 ≤ b2 ∧ b2 ≤ 0xBF ∧ 0x80 ≤ b3 ∧ b3 ≤ 0xBF) && utf8Valid t3
            else if (0xE1 ≤ b1 ∧ b1 ≤ 0xEC) ∨ b1 = 0xEE ∨ b1 = 0xEF then
              decide (0x80 ≤ b2 ∧ b2 ≤ 0xBF ∧ 0x80 ≤ b3 ∧ b3 ≤ 0xBF) && utf8Valid t3
            else if b1 = 0xED then
              decide (0x80 ≤ b2 ∧ b2 ≤ 0x9F ∧ 0x80 ≤ b3 ∧ b3 ≤ 0xBF) && utf8Valid t3
            else
              match t3 with
              | [] => false
              | b4 :: t4 =>
                if b1 = 0xF0 then
                  decide (0x90 ≤ b2 ∧ b2 ≤ 0xBF ∧ 0x80 ≤ b3 ∧ b3 ≤ 0xBF ∧
                    0x80 ≤ b4 ∧ b4 ≤ 0xBF) && utf8Valid t4
                else if 0xF1 ≤ b1 ∧ b1 ≤ 0xF3 then
                  decide (0x80 ≤ b2 ∧ b2 ≤ 0xBF ∧ 0x80 ≤ b3 ∧ b3 ≤ 0xBF ∧
                    0x80 ≤ b4 ∧ b4 ≤ 0xBF) && utf8Valid t4
                else if b1 = 0xF4 then
                  decide (0x80 ≤ b2 ∧ b2 ≤ 0x8F ∧ 0x80 ≤ b3 ∧ b3 ≤ 0xBF ∧
                    0x80 ≤ b4 ∧ b4 ≤ 0xBF) && utf8Valid t4
                else false

/-! ## The challenge-6 orchestrator (src/examples/set1_challenge6.rs) -/

/-- Modelled from the spec: the byte-buffer single-byte XOR breaker that
the challenge-6 orchestrator calls (the library's `break_single_byte_xor`
takes a hex string and returns only a score/plaintext pair, so the
variant used by the example is absent from src).  Per spec section 4.2 it
tries every character of the set as the key, discards a candidate whose
decryption is not decodable as valid text, scores the decodable ones and
keeps the best (minimum) score, returning (score, key, plaintext). -/
def breakSingleByteXorBytes (bytes : List Nat) (expected : Char → ℚ)
    (characterSet : List Char) : Option (ℚ × Char × List Char) :=
  minByFst (characterSet.filterMap
    (fun ch =>
      let decrypted := bytes.map (fun b => b ^^^ (ch.toNat % 256))
      if utf8Valid decrypted then
        some (score_text (bytes_to_string decrypted) expected characterSet,
          ch, bytes_to_string decrypted)
      else none))

/-- Model of the per-candidate aggregation of the challenge-6 main
function: for every probable key size, transpose the ciphertext, break
every column (`unwrap` of a failed break panics, modelled by `none`
through `mapM`), sum the column scores, normalize by the key length and
record the assembled key characters. -/
def candidateAggregates (bytes : List Nat) (expected : Char → ℚ) (characterSet : List Char)
    (topN chunks maxKeySize : Nat) : Option (List (ℚ × List Char)) :=
  (probable_key_sizes bytes topN chunks maxKeySize).mapM
    (fun k =>
      ((transpose_byte_chunks bytes k).bind
          (fun blocks => blocks.mapM
            (fun col => breakSingleByteXorBytes col expected characterSet))).map
        (fun results =>
          (((results.map (fun r => r.1)).sum) / (results.length : ℚ),
            results.map (fun r => r.2.1))))

/-- Model of the candidate selection of the challenge-6 main function:
`max_by` with `total_cmp` over the normalized aggregate scores (the final
`unwrap` of an empty maximum panics, modelled by `none`). -/
def challenge6Select (bytes : List Nat) (expected : Char → ℚ) (characterSet : List Char)
    (topN chunks maxKeySize : Nat) : Option (ℚ × List Char) :=
  (candidateAggregates bytes expected characterSet topN chunks maxKeySize).bind maxByFst

end Cryptopals

namespace Cryptopals

/-! ## Helper lemmas -/

theorem minByFst_eq_none_iff {α : Type} (l : List (ℚ × α)) :
    minByFst l = none ↔ l = [] := by
  cases l <;> simp [minByFst]

theorem foldl_min_mem {α : Type} :
    ∀ (t : List (ℚ × α)) (h : ℚ × α),
      t.foldl (fun best x => if x.1 < best.1 then x else best) h ∈ h :: t := by
  intro t
  induction t with
  | nil => intro h; simp
  | cons x t ih =>
    intro h
    simp only [List.foldl_cons]
    by_cases hx : x.1 < h.1
    · rw [if_pos hx]
      exact List.mem_cons_of_mem h (ih x)
    · rw [if_neg hx]
      rcases List.mem_cons.mp (ih h) with hm | hm
      · rw [hm]; exact List.mem_cons_self _ _
      · exact List.mem_cons_of_mem h (List.mem_cons_of_mem x hm)

theorem foldl_min_le {α : Type} :
    ∀ (t : List (ℚ × α)) (h : ℚ × α) (y : ℚ × α), y ∈ h :: t →
      (t.foldl (fun best x => if x.1 < best.1 then x else best) h).1 ≤ y.1 := by
  intro t
  induction t with
  | nil =>
    intro h y hy
    simp at hy
    simp [hy]
  | cons x t ih =>
    intro h y hy
    simp only [List.foldl_cons]
    have hacc : (if x.1 < h.1 then x else h).1 ≤ h.1 ∧ (if x.1 < h.1 then x else h).1 ≤ x.1 := by
      by_cases hx : x.1 < h.1 <;> simp [hx] <;> [exact le_of_lt hx; exact le_of_not_lt hx]
    have hfold := ih (if x.1 < h.1 then x else h)
    have hself := hfold (if x.1 < h.1 then x else h) (List.mem_cons_self _ _)
    rcases List.mem_cons.mp hy with hm | hm
    · exact le_trans hself (hm ▸ hacc.1)
    · rcases List.mem_cons.mp hm with hm2 | hm2
      · exact le_trans hself (hm2 ▸ hacc.2)
      · exact hfold y (List.mem_cons_of_mem _ hm2)

theorem minByFst_mem {α : Type} (l : List (ℚ × α)) (x : ℚ × α) :
    minByFst l = some x → x ∈ l := by
  cases l with
  | nil => simp [minByFst]
  | cons h t =>
    intro hx
    simp only [minByFst, Option.some.injEq] at hx
    exact hx ▸ foldl_min_mem t h

theorem minByFst_le {α : Type} (l : List (ℚ × α)) (x : ℚ × α) :
    minByFst l = some x → ∀ y ∈ l, x.1 ≤ y.1 := by
  cases l with
  | nil => simp [minByFst]
  | cons h t =>
    intro hx y hy
    simp only [minByFst, Option.some.injEq] at hx
    exact hx ▸ foldl_min_le t h y hy

theorem mapM_loop_eq {α β : Type} (f : α → Option β) (g : α → β)
    (hfg : ∀ a, f a = some (g a)) :
    ∀ (l : List α) (acc : List β),
      List.mapM.loop f l acc = some (acc.reverse ++ l.map g) := by
  intro l
  induction l with
  | nil => intro acc; simp [List.mapM.loop]
  | cons a t ih =>
    intro acc
    simp only [List.mapM.loop, hfg a, Option.bind_eq_bind, Option.some_bind, ih,
      List.reverse_cons, List.map_cons, List.append_assoc, List.singleton_append]

theorem mapM_eq_some_map {α β : Type} (l : List α) (f : α → Option β) (g : α → β)
    (hfg : ∀ a, f a = some (g a)) : l.mapM f = some (l.map g) := by
  show List.mapM.loop f l [] = _
  rw [mapM_loop_eq f g hfg l []]
  rfl

theorem break_canonical (hex : List Char) (expected : Char → ℚ) (cs : List Char)
    (bs : List Nat) (hhex : hexDecode hex = some bs) :
    break_single_byte_xor hex expected cs =
      some (minByFst (cs.map (fun ch =>
        (score_text (bytes_to_string (bs.map (fun b => b ^^^ (ch.toNat % 256)))) expected cs,
          bytes_to_string (bs.map (fun b => b ^^^ (ch.toNat % 256))))))) := by
  unfold break_single_byte_xor
  rw [mapM_eq_some_map cs _
    (fun ch => bytes_to_string (bs.map (fun b => b ^^^ (ch.toNat % 256))))
    (by intro ch; simp [xor_with_char, xor_with_byte, hhex])]
  simp only [Option.map_some', List.map_map]
  rfl

/-! ## Claim theorems -/

/-- C9: repeating-key XOR is self-inverse for every non-empty key. -/
theorem repeating_key_xor_involutive (bytes key : List Nat) (hkey : key ≠ []) :
    repeating_key_xor (repeating_key_xor bytes key) key = bytes := by
  have hclen : ∀ n, (cycleTake key n).length = n := by
    intro n; simp [cycleTake, hkey]
  have hlen : (repeating_key_xor bytes key).length = bytes.length := by
    simp [repeating_key_xor, List.length_zipWith, hclen]
  have hcancel : ∀ (l c : List Nat), c.length = l.length →
      List.zipWith (fun a b => a ^^^ b) (List.zipWith (fun a b => a ^^^ b) l c) c = l := by
    intro l
    induction l with
    | nil => intro c _; simp
    | cons a l ih =>
      intro c hc
      cases c with
      | nil => simp at hc
      | cons b c =>
        simp only [List.zipWith_cons_cons]
        rw [ih c (by simpa using hc)]
        rw [Nat.xor_cancel_right]
  show List.zipWith (fun a b => a ^^^ b) (repeating_key_xor bytes key)
      (cycleTake key (repeating_key_xor bytes key).length) = bytes
  rw [hlen]
  exact hcancel bytes (cycleTake key bytes.length) (by rw [hclen])

/-- Witness for C9 at bytes [1,2,3] and key [7]. -/
theorem repeating_key_xor_involutive_witness :
    repeating_key_xor (repeating_key_xor [1, 2, 3] [7]) [7] = [1, 2, 3] :=
  repeating_key_xor_involutive [1, 2, 3] [7] (by decide)

/-- C10: with the empty key, repeating-key XOR returns the empty vector,
because zipping against the cycle of an empty key yields nothing. -/
theorem repeating_key_xor_empty_key (bytes : List Nat) :
    repeating_key_xor bytes [] = [] := by
  simp [repeating_key_xor, cycleTake]

/-- C5: a zero block size is rejected immediately (the function never
produces a partition for it, on any buffer), while every positive block
size produces a partition into exactly that many streams. -/
theorem transpose_zero_rejected (bytes : List Nat) :
    transpose_byte_chunks bytes 0 = none ∧
      ∀ k, k ≠ 0 → ∃ blocks, transpose_byte_chunks bytes k = some blocks ∧
        blocks.length = k := by
  constructor
  · simp [transpose_byte_chunks]
  · intro k hk
    rw [transpose_byte_chunks, if_neg hk]
    refine ⟨_, rfl, ?_⟩
    have hfold : ∀ (ps : List (Nat × Nat)) (blocks : List (List Nat)),
        (ps.foldl (fun blocks p =>
          blocks.set (p.1 % k) (blocks.getD (p.1 % k) [] ++ [p.2])) blocks).length =
          blocks.length := by
      intro ps
      induction ps with
      | nil => intro blocks; rfl
      | cons p t ih =>
        intro blocks
        simp only [List.foldl_cons]
        rw [ih, List.length_set]
    rw [hfold, List.length_replicate]

/-- Witness for C5 at a concrete buffer and block size 3. -/
theorem transpose_zero_rejected_witness :
    ∃ blocks, transpose_byte_chunks [1, 2, 4, 6, 11, 24, 101] 3 = some blocks ∧
      blocks.length = 3 :=
  (transpose_zero_rejected [1, 2, 4, 6, 11, 24, 101]).2 3 (by decide)

end Cryptopals

namespace Cryptopals

theorem chunksExact_length : ∀ (k : Nat) (l : List Nat), 0 < k →
    (chunksExact k l).length = l.length / k := by
  intro k l hk
  rw [chunksExact, if_neg (Nat.pos_iff_ne_zero.mp hk)]
  rw [List.length_map, List.length_range]

/-- C1 (failing input): on ciphertext [0,3,0,3] with character set
{a, b} and an expected table giving all weight to the letter a, the
candidate aggregates are key "ab" with normalized score 0 and key "a"
with normalized score 1; the orchestrator's `max_by` selects the key "a"
of maximal score 1, although the breaker/scorer convention (lower is
better, as `min_by` shows) designates key "ab" with score 0 — which
decrypts the buffer to "aaaa" — as best. -/
theorem challenge6_select_picks_max :
    candidateAggregates [0, 3, 0, 3] (fun c => if c = 'a' then 1 else 0) ['a', 'b'] 2 4 3 =
      some [(0, ['a', 'b']), (1, ['a'])] ∧
    challenge6Select [0, 3, 0, 3] (fun c => if c = 'a' then 1 else 0) ['a', 'b'] 2 4 3 =
      some (1, ['a']) ∧
    minByFst [((0 : ℚ), ['a', 'b']), (1, ['a'])] = some (0, ['a', 'b']) := by
  refine ⟨?_, ?_, ?_⟩ <;> with_unfolding_all rfl

/-- C2 (counterexample): with character set {a} and ciphertext hex "9e",
the only candidate decrypts to the byte 0xFF, which is not decodable as
UTF-8 text; yet the candidate is not discarded — it is scored and
returned — and the function does not return `none` although no candidate
decodes to valid text and the character set is nonempty. -/
theorem break_scores_undecodable_candidate :
    hexDecode ['9', 'e'] = some [158] ∧
    utf8Valid ([158].map (fun b => b ^^^ ('a'.toNat % 256))) = false ∧
    (['a'] : List Char) ≠ [] ∧
    break_single_byte_xor ['9', 'e'] (fun _ => 0) ['a'] =
      some (some (0, [Char.ofNat 255])) := by
  exact ⟨by decide, by decide, by decide, by with_unfolding_all rfl⟩

/-- C2 (amended): when the ciphertext hex-decodes, `break_single_byte_xor`
scores one candidate per character of the set (none is ever discarded)
and returns `none` exactly when the character set is empty. -/
theorem break_none_iff_charset_empty :
    ∀ (cs : List Char) (expected : Char → ℚ) (hex : List Char) (bs : List Nat),
      hexDecode hex = some bs →
      ((break_single_byte_xor hex expected cs = some none ↔ cs = []) ∧
        ∃ cands : List (ℚ × List Char),
          break_single_byte_xor hex expected cs = some (minByFst cands) ∧
          cands.length = cs.length) := by
  intro cs expected hex bs hhex
  rw [break_canonical hex expected cs bs hhex]
  refine ⟨⟨?_, ?_⟩, ⟨_, rfl, by rw [List.length_map]⟩⟩
  · intro h
    exact List.map_eq_nil_iff.mp ((minByFst_eq_none_iff _).mp (Option.some.inj h))
  · intro h
    subst h
    rfl

/-- Witness for the amended C2 at character set {a} and ciphertext "00". -/
theorem break_none_iff_charset_empty_witness :
    ((break_single_byte_xor ['0', '0'] (fun _ => 0) ['a'] = some none ↔
        (['a'] : List Char) = []) ∧
      ∃ cands : List (ℚ × List Char),
        break_single_byte_xor ['0', '0'] (fun _ => 0) ['a'] = some (minByFst cands) ∧
        cands.length = (['a'] : List Char).length) :=
  break_none_iff_charset_empty ['a'] (fun _ => 0) ['0', '0'] [0] (by decide)

/-- C3 (counterexample): two runs on the empty buffer whose only — hence
winning — key characters differ ('a' versus 'b') return identical
results, so no function of the returned value can recover the winning key
character: the result does not carry it. -/
theorem break_result_omits_key_char :
    break_single_byte_xor [] (fun _ => 0) ['a'] = some (some (0, [])) ∧
    break_single_byte_xor [] (fun _ => 0) ['b'] = some (some (0, [])) ∧
    ¬ ∃ f : ℚ × List Char → Char,
        ∀ (c : Char) (expected : Char → ℚ) (hex : List Char) (r : ℚ × List Char),
          break_single_byte_xor hex expected [c] = some (some r) → f r = c := by
  refine ⟨by with_unfolding_all rfl, by with_unfolding_all rfl, ?_⟩
  rintro ⟨f, hf⟩
  have ha := hf 'a' (fun _ => 0) [] (0, []) (by with_unfolding_all rfl)
  have hb := hf 'b' (fun _ => 0) [] (0, []) (by with_unfolding_all rfl)
  rw [ha] at hb
  exact absurd hb (by decide)

/-- C3 (amended): on success the result is the (score, plaintext) pair —
with no key character — of one of the attempted key characters, the score
being the frequency score of that plaintext. -/
theorem break_result_is_attempted_candidate :
    ∀ (cs : List Char) (expected : Char → ℚ) (hex : List Char) (r : ℚ × List Char),
      break_single_byte_xor hex expected cs = some (some r) →
      ∃ bs, hexDecode hex = some bs ∧ ∃ ch ∈ cs,
        r = (score_text (bytes_to_string (bs.map (fun b => b ^^^ (ch.toNat % 256))))
              expected cs,
          bytes_to_string (bs.map (fun b => b ^^^ (ch.toNat % 256)))) := by
  intro cs expected hex r hbrk
  cases hhex : hexDecode hex with
  | none =>
    exfalso
    cases cs with
    | nil =>
      have hnil : break_single_byte_xor hex expected [] = some none := rfl
      rw [hnil] at hbrk
      simp at hbrk
    | cons c t =>
      have hfc : (xor_with_char hex c).map bytes_to_string = none := by
        simp [xor_with_char, xor_with_byte, hhex]
      have hnone : break_single_byte_xor hex expected (c :: t) = none := by
        unfold break_single_byte_xor
        show Option.map _ (List.mapM.loop _ (c :: t) []) = none
        simp only [List.mapM.loop, hfc, Option.bind_eq_bind, Option.none_bind,
          Option.map_none']
      rw [hnone] at hbrk
      simp at hbrk
  | some bs =>
    rw [break_canonical hex expected cs bs hhex] at hbrk
    obtain ⟨ch, hch, heq⟩ := List.mem_map.mp (minByFst_mem _ r (Option.some.inj hbrk))
    exact ⟨bs, rfl, ch, hch, heq.symm⟩

/-- Witness for the amended C3 at character set {a} and ciphertext "00". -/
theorem break_result_is_attempted_candidate_witness :
    ∃ bs, hexDecode ['0', '0'] = some bs ∧ ∃ ch ∈ (['a'] : List Char),
      ((1 : ℚ), ['a']) =
        (score_text (bytes_to_string (bs.map (fun b => b ^^^ (ch.toNat % 256))))
            (fun _ => 0) ['a'],
          bytes_to_string (bs.map (fun b => b ^^^ (ch.toNat % 256)))) :=
  break_result_is_attempted_candidate ['a'] (fun _ => 0) ['0', '0'] (1, ['a'])
    (by with_unfolding_all rfl)

/-- C4 (counterexample): the same character set presented in two different
iteration orders — and a hash set fixes no order — produces different
results on an exact score tie, so the result is not a function of the
set alone. -/
theorem break_depends_on_iteration_order :
    List.Perm ['a', 'b'] ['b', 'a'] ∧
    break_single_byte_xor ['0', '0'] (fun _ => 0) ['a', 'b'] ≠
      break_single_byte_xor ['0', '0'] (fun _ => 0) ['b', 'a'] := by
  exact ⟨List.Perm.swap 'b' 'a' [], of_decide_eq_false (by with_unfolding_all rfl)⟩

/-- C4 (amended): for a fixed iteration order the function is a pure
function of its inputs, and the strict fold comparison returns a
candidate whose score is a lower bound of every attempted candidate's
score (the first such candidate in iteration order). -/
theorem break_returns_minimal_score :
    ∀ (cs : List Char) (expected : Char → ℚ) (hex : List Char) (bs : List Nat)
      (r : ℚ × List Char),
      hexDecode hex = some bs →
      break_single_byte_xor hex expected cs = some (some r) →
      ∀ ch ∈ cs,
        r.1 ≤ score_text (bytes_to_string (bs.map (fun b => b ^^^ (ch.toNat % 256))))
          expected cs := by
  intro cs expected hex bs r hhex hbrk ch hch
  rw [break_canonical hex expected cs bs hhex] at hbrk
  exact minByFst_le _ r (Option.some.inj hbrk) _ (List.mem_map_of_mem _ hch)

/-- Witness for the amended C4: at character set order {a, b} and
ciphertext "00" the returned score 1 is a lower bound of the score of the
candidate key 'b'. -/
theorem break_returns_minimal_score_witness :
    ((1 : ℚ), ['a']).1 ≤
      score_text (bytes_to_string (List.map (fun b => b ^^^ ('b'.toNat % 256)) [0]))
        (fun _ => 0) ['a', 'b'] :=
  break_returns_minimal_score ['a', 'b'] (fun _ => 0) ['0', '0'] [0] (1, ['a'])
    (by decide) (by with_unfolding_all rfl) 'b' (by decide)

/-- C6 (counterexample): with chunksToSample = 1 the sampled pair list of
candidate length 1 is empty and its average is computed as 0.0/0.0: a NaN
average is produced, with no guard. -/
theorem keySizeAverages_nan_single_chunk :
    keySizeAverages [0, 0] 1 2 = [(1, FScore.nan)] := by with_unfolding_all rfl

/-- C6 (amended): whenever at least two chunks are sampled, the size
guard 2*k ≤ length guarantees at least one adjacent chunk pair for every
candidate, so every recorded average is a real number, never NaN. -/
theorem keySizeAverages_no_nan (bytes : List Nat) (chunks maxKeySize : Nat)
    (hchunks : 2 ≤ chunks) :
    ∀ p ∈ keySizeAverages bytes chunks maxKeySize, p.2 ≠ FScore.nan := by
  intro p hp
  unfold keySizeAverages at hp
  obtain ⟨k, hk, rfl⟩ := List.mem_map.mp hp
  obtain ⟨hkr, hkb⟩ := List.mem_filter.mp hk
  have hkb' : 2 * k ≤ bytes.length := of_decide_eq_true hkb
  have hk1 : 0 < k := by
    obtain ⟨i, _, hi⟩ := List.mem_range'.mp hkr
    omega
  show keySizeAvg bytes chunks k ≠ FScore.nan
  unfold keySizeAvg favg
  have hce : 2 ≤ (chunksExact k bytes).length := by
    rw [chunksExact_length k bytes hk1]
    rw [Nat.le_div_iff_mul_le hk1]
    omega
  have hlen : (norm_distances bytes chunks k).length ≠ 0 := by
    unfold norm_distances tupleWindows
    rw [List.length_map, List.length_zip, List.length_tail, List.length_take]
    omega
  rw [if_neg hlen]
  intro hcontra
  exact FScore.noConfusion hcontra

/-- Witness for the amended C6: with two sampled chunks the single
candidate of the two-byte buffer has the real average 0. -/
theorem keySizeAverages_no_nan_witness :
    ((1 : Nat), FScore.val 0).2 ≠ FScore.nan :=
  keySizeAverages_no_nan [0, 0] 2 2 (by decide) (1, FScore.val 0)
    (by with_unfolding_all decide)

end Cryptopals

namespace Cryptopals

theorem fle_trans : ∀ a b c : FScore, fle a b = true → fle b c = true → fle a c = true := by
  intro a b c hab hbc
  cases a <;> cases b <;> cases c <;> simp_all [fle] <;> linarith

theorem fle_total : ∀ a b : FScore, (fle a b || fle b a) = true := by
  intro a b
  cases a <;> cases b <;> simp [fle] <;> exact le_total _ _

theorem fpairLe_trans : ∀ a b c : Nat × FScore,
    fpairLe a b = true → fpairLe b c = true → fpairLe a c = true := by
  intro a b c
  exact fle_trans a.2 b.2 c.2

theorem fpairLe_total : ∀ a b : Nat × FScore, (fpairLe a b || fpairLe b a) = true := by
  intro a b
  exact fle_total a.2 b.2

theorem sortedKeySizes_mem_shape (bytes : List Nat) (chunks maxKeySize : Nat) :
    ∀ p ∈ sortedKeySizes bytes chunks maxKeySize,
      p.2 = keySizeAvg bytes chunks p.1 ∧
      p.1 ∈ (List.range' 1 (maxKeySize - 1)).filter
        (fun k => decide (2 * k ≤ bytes.length)) := by
  intro p hp
  have hmem : p ∈ keySizeAverages bytes chunks maxKeySize :=
    ((List.mergeSort_perm (keySizeAverages bytes chunks maxKeySize) fpairLe).mem_iff).mp hp
  obtain ⟨k, hk, rfl⟩ := List.mem_map.mp hmem
  exact ⟨rfl, hk⟩

theorem sortedKeySizes_sorted (bytes : List Nat) (chunks maxKeySize : Nat) :
    List.Pairwise (fun p q => fpairLe p q = true)
      (sortedKeySizes bytes chunks maxKeySize) :=
  List.sorted_mergeSort fpairLe_trans fpairLe_total _

/-- C7: `probable_key_sizes` returns only lengths `k` with `1 ≤ k`,
`k < maxKeySize` and `2*k ≤ length bytes`; returns the empty sequence on
an empty buffer; returns at most `topN` candidates (all of them when
fewer qualify); the returned candidates appear in ascending order of
average normalized Hamming distance; and every returned candidate's
average is at most the average of every candidate cut off by `topN`. -/
theorem probable_key_sizes_spec :
    ∀ (bytes : List Nat) (topN chunks maxKeySize : Nat),
      (∀ k ∈ probable_key_sizes bytes topN chunks maxKeySize,
        1 ≤ k ∧ k < maxKeySize ∧ 2 * k ≤ bytes.length) ∧
      (bytes = [] → probable_key_sizes bytes topN chunks maxKeySize = []) ∧
      (probable_key_sizes bytes topN chunks maxKeySize).length =
        min topN (keySizeAverages bytes chunks maxKeySize).length ∧
      List.Pairwise
        (fun k1 k2 => ∀ q1 q2, keySizeAvg bytes chunks k1 = FScore.val q1 →
          keySizeAvg bytes chunks k2 = FScore.val q2 → q1 ≤ q2)
        (probable_key_sizes bytes topN chunks maxKeySize) ∧
      (∀ k ∈ probable_key_sizes bytes topN chunks maxKeySize,
        ∀ p ∈ (sortedKeySizes bytes chunks maxKeySize).drop topN,
          ∀ q1 q2, keySizeAvg bytes chunks k = FScore.val q1 →
            keySizeAvg bytes chunks p.1 = FScore.val q2 → q1 ≤ q2) := by
  intro bytes topN chunks maxKeySize
  have hShape := sortedKeySizes_mem_shape bytes chunks maxKeySize
  have hSorted := sortedKeySizes_sorted bytes chunks maxKeySize
  refine ⟨?_, ?_, ?_, ?_, ?_⟩
  · intro k hk
    unfold probable_key_sizes at hk
    have hk2 : k ∈ (sortedKeySizes bytes chunks maxKeySize).map (fun p => p.1) :=
      List.mem_of_mem_take hk
    obtain ⟨p, hp, rfl⟩ := List.mem_map.mp hk2
    obtain ⟨_, hpf⟩ := hShape p hp
    obtain ⟨hpr, hpb⟩ := List.mem_filter.mp hpf
    obtain ⟨i, hi, hpi⟩ := List.mem_range'.mp hpr
    have := of_decide_eq_true hpb
    omega
  · intro hbytes
    subst hbytes
    have hnil : keySizeAverages [] chunks maxKeySize = [] := by
      unfold keySizeAverages
      rw [List.filter_eq_nil_iff.mpr, List.map_nil]
      intro k hkr
      obtain ⟨i, hi, hki⟩ := List.mem_range'.mp hkr
      simp only [List.length_nil, decide_eq_true_eq]
      omega
    unfold probable_key_sizes sortedKeySizes
    rw [hnil, List.mergeSort_nil, List.map_nil, List.take_nil]
  · unfold probable_key_sizes
    rw [List.length_take, List.length_map]
    rw [show (sortedKeySizes bytes chunks maxKeySize).length =
        (keySizeAverages bytes chunks maxKeySize).length from
      (List.mergeSort_perm (keySizeAverages bytes chunks maxKeySize) fpairLe).length_eq]
  · unfold probable_key_sizes
    have hPW : List.Pairwise
        (fun k1 k2 => ∀ q1 q2, keySizeAvg bytes chunks k1 = FScore.val q1 →
          keySizeAvg bytes chunks k2 = FScore.val q2 → q1 ≤ q2)
        ((sortedKeySizes bytes chunks maxKeySize).map (fun p => p.1)) := by
      rw [List.pairwise_map]
      refine hSorted.imp_of_mem ?_
      intro p q hp hq hpq q1 q2 h1 h2
      have hps := (hShape p hp).1
      have hqs := (hShape q hq).1
      unfold fpairLe at hpq
      rw [hps, h1, hqs, h2] at hpq
      simpa [fle] using hpq
    exact hPW.sublist (List.take_sublist _ _)
  · intro k hk p hp q1 q2 h1 h2
    unfold probable_key_sizes at hk
    rw [← List.map_take] at hk
    obtain ⟨x, hx, rfl⟩ := List.mem_map.mp hk
    have hsplit := List.pairwise_append.mp
      ((List.take_append_drop topN (sortedKeySizes bytes chunks maxKeySize)) ▸ hSorted)
    have hrel := hsplit.2.2 x hx p hp
    have hxS : x ∈ sortedKeySizes bytes chunks maxKeySize :=
      (List.take_append_drop topN (sortedKeySizes bytes chunks maxKeySize)) ▸
        List.mem_append_left _ hx
    have hpS : p ∈ sortedKeySizes bytes chunks maxKeySize :=
      (List.take_append_drop topN (sortedKeySizes bytes chunks maxKeySize)) ▸
        List.mem_append_right _ hp
    have hxs := (hShape x hxS).1
    have hps := (hShape p hpS).1
    unfold fpairLe at hrel
    rw [hxs, h1, hps, h2] at hrel
    simpa [fle] using hrel

/-- Witness for C7: the empty buffer yields no candidates, and the
candidate 2 returned on the buffer [0,3,0,3] satisfies the size bounds. -/
theorem probable_key_sizes_spec_witness :
    probable_key_sizes [] 3 2 20 = [] ∧
      (1 ≤ 2 ∧ 2 < 3 ∧ 2 * 2 ≤ ([0, 3, 0, 3] : List Nat).length) :=
  ⟨(probable_key_sizes_spec [] 3 2 20).2.1 rfl,
    (probable_key_sizes_spec [0, 3, 0, 3] 2 4 3).1 2 (by with_unfolding_all decide)⟩

end Cryptopals

namespace Cryptopals

theorem colF_nil (k j m : Nat) : colF k j m [] = [] := rfl

theorem colF_cons (k j m b : Nat) (bs : List Nat) :
    colF k j m (b :: bs) = (if m % k = j then [b] else []) ++ colF k j (m + 1) bs := by
  by_cases h : m % k = j <;> simp [colF, List.enumFrom, List.filter_cons, h]

theorem colF_append (k j : Nat) :
    ∀ (u v : List Nat) (m : Nat),
      colF k j m (u ++ v) = colF k j m u ++ colF k j (m + u.length) v := by
  intro u
  induction u with
  | nil => intro v m; simp [colF_nil]
  | cons b t ih =>
    intro v m
    simp only [List.cons_append, colF_cons, ih, List.length_cons]
    rw [show m + (t.length + 1) = m + 1 + t.length from by omega, List.append_assoc]

theorem colF_shift (k j : Nat) :
    ∀ (bytes : List Nat) (m : Nat), colF k j (m + k) bytes = colF k j m bytes := by
  intro bytes
  induction bytes with
  | nil => intro m; rfl
  | cons b t ih =>
    intro m
    rw [colF_cons, colF_cons, Nat.add_mod_right]
    rw [show m + k + 1 = m + 1 + k from by omega, ih]

theorem colF_high (k j : Nat) :
    ∀ (u : List Nat) (m : Nat), j < m → m + u.length ≤ k → colF k j m u = [] := by
  intro u
  induction u with
  | nil => intro m _ _; rfl
  | cons b t ih =>
    intro m hj hm
    simp only [List.length_cons] at hm
    have hmk : m < k := by omega
    rw [colF_cons, if_neg (by rw [Nat.mod_eq_of_lt hmk]; omega),
      ih (m + 1) (by omega) (by omega)]
    rfl

theorem colF_small (k j : Nat) (hjk : j < k) :
    ∀ (u : List Nat) (m : Nat), m ≤ j → m + u.length ≤ k →
      colF k j m u = (u[j - m]?).toList := by
  intro u
  induction u with
  | nil => intro m _ _; simp [colF_nil]
  | cons b t ih =>
    intro m hmj hm
    simp only [List.length_cons] at hm
    have hmk : m < k := by omega
    rw [colF_cons]
    by_cases h : m = j
    · subst h
      rw [if_pos (Nat.mod_eq_of_lt hmk)]
      rw [colF_high k m t (m + 1) (by omega) (by omega)]
      simp [Nat.sub_self]
    · rw [if_neg (by rw [Nat.mod_eq_of_lt hmk]; omega)]
      rw [ih (m + 1) (by omega) (by omega)]
      rw [show j - m = (j - (m + 1)) + 1 from by omega, List.getElem?_cons_succ]
      rfl

theorem colF_decomp (k j : Nat) (hjk : j < k) (bytes : List Nat) :
    colF k j 0 bytes = (bytes[j]?).toList ++ colF k j 0 (bytes.drop k) := by
  by_cases hlen : bytes.length ≤ k
  · rw [List.drop_eq_nil_of_le hlen, colF_nil, List.append_nil]
    have := colF_small k j hjk bytes 0 (by omega) (by omega)
    simpa using this
  · push_neg at hlen
    conv_lhs => rw [← List.take_append_drop k bytes]
    rw [colF_append]
    have htk : (List.take k bytes).length = k := by
      rw [List.length_take]; omega
    rw [htk]
    rw [colF_small k j hjk (List.take k bytes) 0 (by omega) (by omega)]
    rw [colF_shift k j (List.drop k bytes) 0]
    simp only [Nat.sub_zero, List.getElem?_take]
    rw [if_pos hjk]

theorem colF_head (k j : Nat) (hjk : j < k) (bytes : List Nat) :
    (colF k j 0 bytes).head? = bytes[j]? := by
  rw [colF_decomp k j hjk bytes]
  cases hb : bytes[j]? with
  | some b => simp
  | none =>
    have hlen : bytes.length ≤ j := List.getElem?_eq_none_iff.mp hb
    rw [List.drop_eq_nil_of_le (by omega), colF_nil]
    simp

theorem colF_tail (k j : Nat) (hjk : j < k) (bytes : List Nat) :
    (colF k j 0 bytes).tail = colF k j 0 (bytes.drop k) := by
  rw [colF_decomp k j hjk bytes]
  cases hb : bytes[j]? with
  | some b => simp
  | none =>
    have hlen : bytes.length ≤ j := List.getElem?_eq_none_iff.mp hb
    rw [List.drop_eq_nil_of_le (by omega), colF_nil]
    simp

theorem foldl_push_getElem (k : Nat) (hk : 0 < k) :
    ∀ (ps : List (Nat × Nat)) (blocks : List (List Nat)), blocks.length = k →
      ∀ j, (ps.foldl (fun blocks p =>
          blocks.set (p.1 % k) (blocks.getD (p.1 % k) [] ++ [p.2])) blocks)[j]? =
        (blocks[j]?).map
          (fun b => b ++ (ps.filter (fun p => decide (p.1 % k = j))).map (fun p => p.2)) := by
  intro ps
  induction ps with
  | nil =>
    intro blocks _ j
    simp only [List.foldl_nil, List.filter_nil, List.map_nil, List.append_nil]
    cases blocks[j]? <;> simp
  | cons p t ih =>
    intro blocks hb j
    simp only [List.foldl_cons]
    have hmk : p.1 % k < blocks.length := by rw [hb]; exact Nat.mod_lt _ hk
    have hlen2 : (blocks.set (p.1 % k) (blocks.getD (p.1 % k) [] ++ [p.2])).length = k := by
      rw [List.length_set, hb]
    rw [ih _ hlen2 j]
    by_cases hj : p.1 % k = j
    · rw [List.filter_cons_of_pos (by simpa using hj)]
      rw [hj] at hmk ⊢
      rw [List.getElem?_set]
      rw [if_pos rfl, if_pos hmk]
      rw [List.getD_eq_getElem?_getD]
      cases hbj : blocks[j]? with
      | none =>
        exact absurd (List.getElem?_eq_none_iff.mp hbj) (by omega)
      | some bj =>
        simp [List.append_assoc]
    · rw [List.filter_cons_of_neg (by simpa using hj)]
      rw [List.getElem?_set, if_neg hj]

theorem transpose_eq_cols (bytes : List Nat) (k : Nat) (hk : k ≠ 0) :
    transpose_byte_chunks bytes k =
      some ((List.range k).map (fun j => colF k j 0 bytes)) := by
  rw [transpose_byte_chunks, if_neg hk]
  congr 1
  apply List.ext_getElem?
  intro j
  rw [foldl_push_getElem k (Nat.pos_of_ne_zero hk) bytes.enum (List.replicate k [])
    (List.length_replicate k []) j]
  rw [List.getElem?_map, List.getElem?_replicate]
  by_cases hj : j < k
  · rw [if_pos hj, List.getElem?_range hj]
    simp only [Option.map_some']
    congr 1
  · rw [if_neg hj]
    rw [List.getElem?_eq_none_iff.mpr (by rw [List.length_range]; omega)]
    rfl

theorem range_filterMap_getElem (bytes : List Nat) :
    ∀ n : Nat, (List.range n).filterMap (fun j => bytes[j]?) = bytes.take n := by
  intro n
  induction n with
  | zero => simp
  | succ n ih =>
    rw [List.range_succ, List.filterMap_append, ih, List.take_succ]
    congr 1

theorem cols_filterMap_head (bytes : List Nat) (k : Nat) :
    ((List.range k).map (fun j => colF k j 0 bytes)).filterMap List.head? =
      bytes.take k := by
  rw [List.filterMap_map]
  have hc : ∀ j ∈ List.range k,
      (List.head? ∘ fun j => colF k j 0 bytes) j = (fun j => bytes[j]?) j := by
    intro j hj
    exact colF_head k j (List.mem_range.mp hj) bytes
  rw [List.filterMap_congr hc, range_filterMap_getElem bytes k]

theorem cols_map_tail (bytes : List Nat) (k : Nat) :
    ((List.range k).map (fun j => colF k j 0 bytes)).map List.tail =
      (List.range k).map (fun j => colF k j 0 (bytes.drop k)) := by
  rw [List.map_map]
  apply List.map_congr_left
  intro j hj
  exact colF_tail k j (List.mem_range.mp hj) bytes

theorem cols_sum_ne_zero (b : Nat) (bs : List Nat) (k : Nat) (hk : 1 ≤ k) :
    ((((List.range k).map (fun j => colF k j 0 (b :: bs)))).map List.length).sum ≠ 0 := by
  have h0 : colF k 0 0 (b :: bs) ≠ [] := by
    have hh := colF_head k 0 (by omega) (b :: bs)
    intro hcontra
    rw [hcontra] at hh
    simp at hh
  have hmem : (colF k 0 0 (b :: bs)).length ∈
      (((List.range k).map (fun j => colF k j 0 (b :: bs))).map List.length) :=
    List.mem_map_of_mem _ (List.mem_map_of_mem _ (List.mem_range.mpr (by omega)))
  have hpos : 0 < (colF k 0 0 (b :: bs)).length := List.length_pos.mpr h0
  have hle := List.single_le_sum (fun x _ => Nat.zero_le x) _ hmem
  omega

theorem interleave_cols_nil (k : Nat) :
    interleave ((List.range k).map (fun j => colF k j 0 [])) = [] := by
  have hz : ∀ j, colF k j 0 ([] : List Nat) = [] := fun j => rfl
  rw [interleave, dif_pos (by simp [hz])]

theorem interleave_cols : ∀ (n : Nat) (bytes : List Nat) (k : Nat),
    bytes.length ≤ n → 1 ≤ k →
    interleave ((List.range k).map (fun j => colF k j 0 bytes)) = bytes := by
  intro n
  induction n with
  | zero =>
    intro bytes k hlen _
    have hb : bytes = [] := List.eq_nil_of_length_eq_zero (by omega)
    subst hb
    exact interleave_cols_nil k
  | succ n ih =>
    intro bytes k hlen hk
    cases bytes with
    | nil => exact interleave_cols_nil k
    | cons b bs =>
      rw [interleave, dif_neg (cols_sum_ne_zero b bs k hk)]
      rw [cols_filterMap_head (b :: bs) k, cols_map_tail (b :: bs) k]
      simp only [List.length_cons] at hlen
      rw [ih ((b :: bs).drop k) k
        (by simp only [List.length_drop, List.length_cons]; omega) hk]
      exact List.take_append_drop k (b :: bs)

/-- C8: for every buffer and every block size between 1 and the buffer
length, re-interleaving the streams of `transpose_byte_chunks` in
round-robin order reconstructs the buffer exactly (stream `i` holds, in
original order, exactly the bytes at positions congruent to `i`). -/
theorem transpose_interleave_roundtrip (bytes : List Nat) (k : Nat)
    (hk : 1 ≤ k) (hkl : k ≤ bytes.length) :
    (transpose_byte_chunks bytes k).map interleave = some bytes := by
  rw [transpose_eq_cols bytes k (by omega), Option.map_some']
  rw [interleave_cols bytes.length bytes k (le_refl _) hk]

/-- Witness for C8 at the buffer [1,2,3] and block size 2. -/
theorem transpose_interleave_roundtrip_witness :
    (transpose_byte_chunks [1, 2, 3] 2).map interleave = some [1, 2, 3] :=
  transpose_interleave_roundtrip [1, 2, 3] 2 (by decide) (by decide)

end Cryptopals
